import Mathlib

/-!
# Verification of the proofmarshal serialization and merbinner tree core

A shallow embedding, in Lean, of the python-proofmarshal repository:
the LEB128 varuint codec, the HMAC-SHA-256 keyed hash, the merbinner
tree serialization, hashing and deserialization paths, and the
standalone hash-only algorithm, together with theorems settling the
specification claims about them.

Bytes are modelled as lists of natural numbers (each element a byte
value below 256 whenever it came from real data); fallible code returns
Option or Except; the recursion of the tree algorithms, which in the
source is plain Python recursion that either terminates or raises an
IndexError, is modelled with an explicit fuel argument chosen large
enough that fuel exhaustion can only happen where the source raises.
-/

/-- A byte string: the model of Python bytes values. -/
abbrev Bytes := List Nat

namespace Proofmarshal

/-! ## Varuint codec

Embeds StreamSerializationContext.write_varuint and
StreamDeserializationContext.read_varuint from src/__init__.py.
-/

/-- One step of the write_varuint loop, with fuel for termination.
Mirrors: emit `value & 0x7f`, with bit 0x80 set when `value > 0x7f`,
then continue on `value >> 7`.  The `value == 0` special case of the
source is the first branch here as well. -/
def writeVaruintAux : Nat → Nat → Bytes
  | 0, _ => []
  | f + 1, v =>
    if v ≤ 127 then [v]
    else ((v &&& 127) ||| 128) :: writeVaruintAux f (v >>> 7)

/-- write_varuint: unsigned little-endian base128 (LEB128) encoding.
Fuel `v + 1` always suffices since the loop divides by 128 each step. -/
def writeVaruint (v : Nat) : Bytes :=
  writeVaruintAux (v + 1) v

/-- The read_varuint loop: accumulate 7 value bits per byte, low to
high, stopping at the first byte without the 0x80 continuation bit.
Running out of input models the fd_read assertion failure. -/
def readVaruintAux : Bytes → Nat → Nat → Option (Nat × Bytes)
  | [], _, _ => none
  | b :: rest, shift, acc =>
    let acc' := acc ||| ((b &&& 127) <<< shift)
    if b &&& 128 = 0 then some (acc', rest)
    else readVaruintAux rest (shift + 7) acc'

/-- read_varuint: decode a LEB128 integer from the front of a byte
string, returning the value and the remaining bytes. -/
def readVaruint (bs : Bytes) : Option (Nat × Bytes) :=
  readVaruintAux bs 0 0

end Proofmarshal

namespace Sha256

/-- Truncate to a 32-bit word. -/
def w32 (n : Nat) : Nat := n % 4294967296

/-- Right rotation of a 32-bit word. -/
def rotr (n x : Nat) : Nat := w32 ((x >>> n) ||| (x <<< (32 - n)))

/-- Small sigma 0. -/
def ls0 (x : Nat) : Nat := (rotr 7 x) ^^^ (rotr 18 x) ^^^ (x >>> 3)

/-- Small sigma 1. -/
def ls1 (x : Nat) : Nat := (rotr 17 x) ^^^ (rotr 19 x) ^^^ (x >>> 10)

/-- Big sigma 0. -/
def bs0 (x : Nat) : Nat := (rotr 2 x) ^^^ (rotr 13 x) ^^^ (rotr 22 x)

/-- Big sigma 1. -/
def bs1 (x : Nat) : Nat := (rotr 6 x) ^^^ (rotr 11 x) ^^^ (rotr 25 x)

/-- Choice function. -/
def ch (x y z : Nat) : Nat := (x &&& y) ^^^ ((x ^^^ 4294967295) &&& z)

/-- Majority function. -/
def maj (x y z : Nat) : Nat := (x &&& y) ^^^ (x &&& z) ^^^ (y &&& z)

/-- The 64 SHA-256 round constants. -/
def kConsts : List Nat :=
  [1116352408, 1899447441, 3049323471, 3921009573, 961987163,
   1508970993, 2453635748, 2870763221, 3624381080, 310598401,
   607225278, 1426881987, 1925078388, 2162078206, 2614888103,
   3248222580, 3835390401, 4022224774, 264347078, 604807628,
   770255983, 1249150122, 1555081692, 1996064986, 2554220882,
   2821834349, 2952996808, 3210313671, 3336571891, 3584528711,
   113926993, 338241895, 666307205, 773529912, 1294757372,
   1396182291, 1695183700, 1986661051, 2177026350, 2456956037,
   2730485921, 2820302411, 3259730800, 3345764771, 3516065817,
   3600352804, 4094571909, 275423344, 430227734, 506948616,
   659060556, 883997877, 958139571, 1322822218, 1537002063,
   1747873779, 1955562222, 2024104815, 2227730452, 2361852424,
   2428436474, 2756734187, 3204031479, 3329325298]

/-- The eight-word SHA-256 chaining state. -/
structure St8 where
  a : Nat
  b : Nat
  c : Nat
  d : Nat
  e : Nat
  f : Nat
  g : Nat
  hh : Nat

/-- The initial chaining state. -/
def initSt : St8 :=
  ⟨1779033703, 3144134277, 1013904242, 2773480762, 1359893119, 2600822924, 528734635, 1541459225⟩

/-- One compression round; `wk` is the sum of the round constant and
the schedule word. -/
def round (st : St8) (wk : Nat) : St8 :=
  let t1 := w32 (st.hh + bs1 st.e + ch st.e st.f st.g + wk)
  let t2 := w32 (bs0 st.a + maj st.a st.b st.c)
  ⟨w32 (t1 + t2), st.a, st.b, st.c, w32 (st.d + t1), st.e, st.f, st.g⟩

/-- Extend the 16 message words to 64, building the list in reverse. -/
def extendW : Nat → List Nat → List Nat
  | 0, rws => rws
  | n + 1, rws =>
    let g := fun (k : Nat) => (rws.get? k).getD 0
    extendW n (w32 (ls1 (g 1) + g 6 + ls0 (g 14) + g 15) :: rws)

/-- Combine four bytes, most significant first, into 32-bit words. -/
def bytesToWords : Bytes → List Nat
  | a :: b :: c :: d :: rest => ((a <<< 24) ||| (b <<< 16) ||| (c <<< 8) ||| d) :: bytesToWords rest
  | _ => []

/-- A natural number as `n` big-endian bytes. -/
def toBEBytes : Nat → Nat → Bytes
  | 0, _ => []
  | k + 1, v => toBEBytes k (v >>> 8) ++ [v &&& 255]

/-- SHA-256 padding: append 0x80, zeros to 56 mod 64, and the bit
length as eight big-endian bytes. -/
def padMessage (msg : Bytes) : Bytes :=
  msg ++ [128] ++ List.replicate ((119 - msg.length % 64) % 64) 0
      ++ toBEBytes 8 (msg.length * 8)

/-- Compress one 16-word block into the chaining state. -/
def compressBlock (st : St8) (ws : List Nat) : St8 :=
  let sched := (extendW 48 ws.reverse).reverse
  let fin := (sched.zip kConsts).foldl (fun s p => round s (w32 (p.1 + p.2))) st
  ⟨w32 (st.a + fin.a), w32 (st.b + fin.b), w32 (st.c + fin.c), w32 (st.d + fin.d),
   w32 (st.e + fin.e), w32 (st.f + fin.f), w32 (st.g + fin.g), w32 (st.hh + fin.hh)⟩

/-- Fold the 16-word blocks of a padded message into the state; the
fuel is the number of blocks. -/
def processBlocks : Nat → St8 → List Nat → St8
  | 0, st, _ => st
  | n + 1, st, ws => processBlocks n (compressBlock st (ws.take 16)) (ws.drop 16)

/-- SHA-256 of a byte string, as 32 bytes. -/
def sha256 (msg : Bytes) : Bytes :=
  let ws := bytesToWords (padMessage msg)
  let st := processBlocks (ws.length / 16) initSt ws
  toBEBytes 4 st.a ++ toBEBytes 4 st.b ++ toBEBytes 4 st.c ++ toBEBytes 4 st.d ++
  toBEBytes 4 st.e ++ toBEBytes 4 st.f ++ toBEBytes 4 st.g ++ toBEBytes 4 st.hh

/-- HMAC-SHA-256, as used by calc_hash: keys in this repository are at
most one block long, so only zero padding of the key applies. -/
def hmacSHA256 (key msg : Bytes) : Bytes :=
  let k0 := key ++ List.replicate (64 - key.length) 0
  let ipad := k0.map (fun b => b ^^^ 0x36)
  let opad := k0.map (fun b => b ^^^ 0x5c)
  sha256 (opad ++ sha256 (ipad ++ msg))

end Sha256

namespace Proofmarshal

/-! ## Merbinner tree model

Embeds src/merbinnertree.py.  An entry is a `(key, value, sum)` triple
as built by `_ctx_serialize` from the `(key, value)` pairs of the dict;
keys and values are byte strings (the only kind the partitioning code,
which indexes into the raw key, can run on).
-/

/-- A `(key, value, sum)` work item of the recursion. -/
abbrev Entry := Bytes × Bytes × Nat

/-- The per-type policy attributes of a MerbinnerTree subclass:
HASH_HMAC_KEY, the key/value/sum codecs, the hash and sum extraction
policies, the sum combination function and SUM_IDENTITY. -/
structure MTConfig where
  hmacKey : Bytes
  keySerialize : Bytes → Bytes
  valueSerialize : Bytes → Bytes
  sumSerialize : Nat → Bytes
  keyDeserialize : Bytes → Option (Bytes × Bytes)
  valueDeserialize : Bytes → Option (Bytes × Bytes)
  keyGethash : Bytes → Bytes
  valueGethash : Bytes → Bytes
  valueGetsum : Bytes → Nat
  sumFunc : Nat → Nat → Nat
  sumIdentity : Nat

/-- The partition bit `key[depth // 8] >> (7 - depth % 8) & 0b1`;
`none` models the IndexError raised when the byte index is out of
range. -/
def keyBit (key : Bytes) (depth : Nat) : Option Nat :=
  (key.get? (depth / 8)).map (fun b => (b >>> (7 - depth % 8)) &&& 1)

/-- The partition loop shared by `_ctx_serialize` and
`calc_summed_merbinner_hash`: walk the items in order, routing an item
to the left list when the bit of its FIRST component at the current
depth is 1 and to the right list otherwise. -/
def splitItems (depth : Nat) : List Entry → Option (List Entry × List Entry)
  | [] => some ([], [])
  | e :: rest => do
    let b ← keyBit e.1 depth
    let (l, r) ← splitItems depth rest
    pure (if b = 1 then (e :: l, r) else (l, e :: r))

/-- The `recurse` closure of `MerbinnerTree._ctx_serialize` under a
plain (non-hashing) serialization context: returns the emitted byte
stream and the node sum.  In this context `do_recurse` serializes the
children inline and writes no sums.  Partitioning uses the RAW key
bytes, exactly as the source does (the `keyhash` local computed there
is never used). -/
def mtSerPlain (cfg : MTConfig) : Nat → Nat → List Entry → Option (Bytes × Nat)
  | 0, _, _ => none
  | f + 1, d, items =>
    match items with
    | [] => some (writeVaruint 0, cfg.sumIdentity)
    | [(k, v, s)] =>
      some (writeVaruint 1 ++ cfg.keySerialize k ++ cfg.valueSerialize v, s)
    | e1 :: e2 :: rest => do
      let (l, r) ← splitItems d (e1 :: e2 :: rest)
      let (bl, sl) ← mtSerPlain cfg f (d + 1) l
      let (br, sr) ← mtSerPlain cfg f (d + 1) r
      pure (writeVaruint 2 ++ bl ++ br, cfg.sumFunc sl sr)

/-- The `recurse` closure of `MerbinnerTree._ctx_serialize` under a
HashSerializationContext: each child of an inner node is serialized
into a fresh hashing context, its HMAC-SHA-256 digest is written in
place of its stream, and the child sum is serialized right after the
digest.  Empty and leaf nodes emit the same bytes as in the plain
context; in particular no sum is written for a leaf. -/
def mtSerHash (cfg : MTConfig) : Nat → Nat → List Entry → Option (Bytes × Nat)
  | 0, _, _ => none
  | f + 1, d, items =>
    match items with
    | [] => some (writeVaruint 0, cfg.sumIdentity)
    | [(k, v, s)] =>
      some (writeVaruint 1 ++ cfg.keySerialize k ++ cfg.valueSerialize v, s)
    | e1 :: e2 :: rest => do
      let (l, r) ← splitItems d (e1 :: e2 :: rest)
      let (bl, sl) ← mtSerHash cfg f (d + 1) l
      let (br, sr) ← mtSerHash cfg f (d + 1) r
      pure (writeVaruint 2
            ++ Sha256.hmacSHA256 cfg.hmacKey bl ++ cfg.sumSerialize sl
            ++ Sha256.hmacSHA256 cfg.hmacKey br ++ cfg.sumSerialize sr,
            cfg.sumFunc sl sr)

/-- The longest key length among the tree pairs; bounds the depth the
recursion can reach before the source raises IndexError. -/
def maxKeyLen (pairs : List (Bytes × Bytes)) : Nat :=
  pairs.foldr (fun p m => max p.1.length m) 0

/-- Fuel sufficient for every run the source completes: past depth
`8 * maxKeyLen` any two-item node raises IndexError in the source and
returns `none` here before fuel can run out. -/
def mtFuel (pairs : List (Bytes × Bytes)) : Nat :=
  8 * maxKeyLen pairs + 2

/-- The `(key, value, value_getsum(value))` work list built by
`_ctx_serialize` from the dict items. -/
def mtItems (cfg : MTConfig) (pairs : List (Bytes × Bytes)) : List Entry :=
  pairs.map (fun p => (p.1, p.2, cfg.valueGetsum p.2))

/-- `MerbinnerTree.serialize`: the bytes produced under a plain
BytesSerializationContext. -/
def mtSerialize (cfg : MTConfig) (pairs : List (Bytes × Bytes)) : Option Bytes :=
  (mtSerPlain cfg (mtFuel pairs) 0 (mtItems cfg pairs)).map Prod.fst

/-- The byte stream fed to the top-level HMAC by `calc_hash`: the
serialization under a HashSerializationContext. -/
def mtHashStream (cfg : MTConfig) (pairs : List (Bytes × Bytes)) : Option Bytes :=
  (mtSerHash cfg (mtFuel pairs) 0 (mtItems cfg pairs)).map Prod.fst

/-- `MerbinnerTree.hash` / `calc_hash`: HMAC-SHA-256 of the hashing
context stream under HASH_HMAC_KEY. -/
def mtHash (cfg : MTConfig) (pairs : List (Bytes × Bytes)) : Option Bytes :=
  (mtHashStream cfg pairs).map (Sha256.hmacSHA256 cfg.hmacKey)

/-! ## Standalone hash-only algorithm

Embeds `calc_summed_merbinner_hash` and `calc_merbinner_hash`.  Items
are `(key_hash, value_hash, sum)` triples; the partition uses the bits
of the key hash (the first component).
-/

/-- `calc_summed_merbinner_hash`: returns the `(hash, sum)` pair of
the node covering `items` at the given depth. -/
def calcSummedAux (hashFunc : Bytes → Bytes) (sumSer : Nat → Bytes)
    (sumFunc : Nat → Nat → Nat) (emptySum : Nat) :
    Nat → Nat → List Entry → Option (Bytes × Nat)
  | 0, _, _ => none
  | f + 1, d, items =>
    match items with
    | [] => some (hashFunc [0], emptySum)
    | [(k, v, s)] => some (hashFunc ([1] ++ k ++ v ++ sumSer s), s)
    | e1 :: e2 :: rest => do
      let (l, r) ← splitItems d (e1 :: e2 :: rest)
      let (lh, ls) ← calcSummedAux hashFunc sumSer sumFunc emptySum f (d + 1) l
      let (rh, rs) ← calcSummedAux hashFunc sumSer sumFunc emptySum f (d + 1) r
      pure (hashFunc ([2] ++ lh ++ sumSer ls ++ rh ++ sumSer rs), sumFunc ls rs)

/-- Fuel for the standalone algorithm, measured on its own items. -/
def itemsFuel (items : List Entry) : Nat :=
  8 * items.foldr (fun e m => max e.1.length m) 0 + 2

/-- `calc_summed_merbinner_hash` at depth 0 over an item list. -/
def calcSummedMerbinnerHash (hashFunc : Bytes → Bytes) (sumSer : Nat → Bytes)
    (sumFunc : Nat → Nat → Nat) (emptySum : Nat) (items : List Entry) :
    Option (Bytes × Nat) :=
  calcSummedAux hashFunc sumSer sumFunc emptySum (itemsFuel items) 0 items

/-- `calc_merbinner_hash`: the summed algorithm with zero sums and an
empty sum serialization, keeping only the hash. -/
def calcMerbinnerHash (hashFunc : Bytes → Bytes)
    (items : List (Bytes × Bytes)) : Option Bytes :=
  (calcSummedMerbinnerHash hashFunc (fun _ => []) (· + ·) 0
      (items.map (fun p => (p.1, p.2, 0)))).map Prod.fst

/-! ## Deserialization

Embeds `MerbinnerTree._ctx_deserialize` over a
BytesDeserializationContext.  The decoded tree is represented by the
list of `(key, value)` insertions `self[key] = value` performed, in
order; an unknown node tag raises, modelled as a distinguished error.
-/

/-- Why a decode failed. -/
inductive DecodeErr where
  /-- A read needed more bytes than remained: the fd_read assertion. -/
  | truncated : DecodeErr
  /-- `unsupported node type: t`. -/
  | badTag (t : Nat) : DecodeErr
  /-- Fuel exhausted (never reached from a run the source completes). -/
  | fuelOut : DecodeErr
deriving DecidableEq, Repr

/-- The `recurse` closure of `_ctx_deserialize`: read a node tag, then
nothing (0), one key/value pair (1), or left and right subtrees (2). -/
def mtDeserRec (cfg : MTConfig) : Nat → Bytes →
    Except DecodeErr (List (Bytes × Bytes) × Bytes)
  | 0, _ => .error .fuelOut
  | f + 1, bs =>
    match readVaruint bs with
    | none => .error .truncated
    | some (0, rest) => .ok ([], rest)
    | some (1, rest) =>
      match cfg.keyDeserialize rest with
      | none => .error .truncated
      | some (k, rest1) =>
        match cfg.valueDeserialize rest1 with
        | none => .error .truncated
        | some (v, rest2) => .ok ([(k, v)], rest2)
    | some (2, rest) => do
      let (l, rest1) ← mtDeserRec cfg f rest
      let (r, rest2) ← mtDeserRec cfg f rest1
      pure (l ++ r, rest2)
    | some (t, _) => .error (.badTag t)

/-- `MerbinnerTree.deserialize`: decode from a byte buffer.  The
trailing bytes left after the root node are dropped without any check,
as in BytesDeserializationContext. -/
def mtDeserialize (cfg : MTConfig) (buf : Bytes) :
    Except DecodeErr (List (Bytes × Bytes)) :=
  (mtDeserRec cfg (buf.length + 1) buf).map Prod.fst

/-! ## Concrete configurations from the test suite -/

/-- Read exactly `n` bytes off the front, the fixed-length
`read_bytes`; failing when fewer remain. -/
def readFixed (n : Nat) (bs : Bytes) : Option (Bytes × Bytes) :=
  if n ≤ bs.length then some (bs.take n, bs.drop n) else none

/-- Big-endian 2-byte serialization of a sum: struct.pack of an
unsigned big-endian short. -/
def packBE2 (s : Nat) : Bytes := [s / 256 % 256, s % 256]

/-- struct.unpack of the last two value bytes as an unsigned
big-endian short: the sum stored in the last two
bytes of a value. -/
def unpackBE2 (v : Bytes) : Nat :=
  256 * ((v.get? (v.length - 2)).getD 0) + ((v.get? (v.length - 1)).getD 0)

/-- The BytesBytesMerbinnerTree policy: 4-byte raw keys and values,
identity hash extraction, no sums. -/
def cfgBytesBytes (key : Bytes) : MTConfig where
  hmacKey := key
  keySerialize := id
  valueSerialize := id
  sumSerialize := fun _ => []
  keyDeserialize := readFixed 4
  valueDeserialize := readFixed 4
  keyGethash := id
  valueGethash := id
  valueGetsum := fun _ => 0
  sumFunc := (· + ·)
  sumIdentity := 0

/-- The HASH_HMAC_KEY of BytesBytesMerbinnerTree. -/
def testKey : Bytes :=
  [0x92, 0xe8, 0x89, 0x8f, 0xcf, 0xa8, 0xb8, 0x6b,
   0x60, 0xb3, 0x22, 0x36, 0xd6, 0x99, 0x0d, 0xa0]

/-- The HASH_HMAC_KEY of SummedBytesBytesMerbinnerTree. -/
def summedTestKey : Bytes :=
  [0xe6, 0x30, 0xf7, 0xa3, 0xa7, 0x84, 0xd5, 0x21,
   0x53, 0x37, 0x72, 0xd4, 0x3c, 0x88, 0x74, 0xc6]

/-- The SummedBytesBytesMerbinnerTree policy: 4-byte keys, 6-byte
values whose last two bytes carry the sum, big-endian 2-byte sum
serialization. -/
def cfgSummed : MTConfig where
  hmacKey := summedTestKey
  keySerialize := id
  valueSerialize := id
  sumSerialize := packBE2
  keyDeserialize := readFixed 4
  valueDeserialize := readFixed 6
  keyGethash := id
  valueGethash := id
  valueGetsum := unpackBE2
  sumFunc := (· + ·)
  sumIdentity := 0

/-- A configuration whose key hash flips every key byte: key_gethash
is the bytewise complement, everything else as in the unsummed 4-byte
configuration.  It separates partitioning by raw key bits from
partitioning by key-hash bits. -/
def cfgComplement : MTConfig :=
  { cfgBytesBytes testKey with keyGethash := fun k => k.map (fun b => 255 - b) }

/-! ## Object state: immutability guard, dict interface, hash cache

Embeds the attribute protocol of `ImmutableProof` (src/__init__.py):
`__setattr__` and `__delattr__` unconditionally raise AttributeError,
while the dict item interface inherited by MerbinnerTree and the
`hash` property cache live outside that guard.
-/

/-- How a class handles attribute writes: the Python default, or the
overriding guard installed by `ImmutableProof.__setattr__` and
`__delattr__`. -/
inductive SetattrPolicy where
  /-- The default object behaviour: store the attribute. -/
  | default : SetattrPolicy
  /-- The ImmutableProof override: always raise AttributeError. -/
  | immutableGuard : SetattrPolicy

/-- Attribute assignment `obj.name = value` dispatched through the
class policy. -/
def applySetattr (pol : SetattrPolicy) (attrs : List (String × Bytes))
    (name : String) (value : Bytes) : Except String (List (String × Bytes)) :=
  match pol with
  | .default => .ok ((name, value) :: attrs.filter (fun p => p.1 ≠ name))
  | .immutableGuard => .error "Object is immutable"

/-- Attribute deletion `del obj.name` dispatched through the class
policy. -/
def applyDelattr (pol : SetattrPolicy) (attrs : List (String × Bytes))
    (name : String) : Except String (List (String × Bytes)) :=
  match pol with
  | .default => .ok (attrs.filter (fun p => p.1 ≠ name))
  | .immutableGuard => .error "Object is immutable"

/-- The policy every ImmutableProof instance (MerbinnerTree included,
which does not override it) uses for attribute writes and deletes. -/
def immutableProofPolicy : SetattrPolicy := .immutableGuard

/-- The observable state of a MerbinnerTree object: its dict entries
and the `_cached_hash` slot that the `hash` property populates. -/
structure MTState where
  entries : List (Bytes × Bytes)
  cachedHash : Option Bytes
deriving DecidableEq, Repr

/-- `dict.__setitem__`: overwrite the value in place when the key is
present, append the pair otherwise.  MerbinnerTree inherits this from
dict unguarded; it is also what `_ctx_deserialize` uses to populate
the object. -/
def dictSet : List (Bytes × Bytes) → Bytes → Bytes → List (Bytes × Bytes)
  | [], k, v => [(k, v)]
  | (k0, v0) :: rest, k, v =>
    if k0 = k then (k0, v) :: rest else (k0, v0) :: dictSet rest k v

/-- `tree[k] = v` through the mapping interface: always succeeds. -/
def mtSetItem (st : MTState) (k v : Bytes) : MTState :=
  { st with entries := dictSet st.entries k v }

/-- The `hash` property: return the cached digest when present,
otherwise compute `calc_hash`, cache it and return it.  Returns `none`
only when hashing itself fails. -/
def mtHashProp (cfg : MTConfig) (st : MTState) : Option (Bytes × MTState) :=
  match st.cachedHash with
  | some h => some (h, st)
  | none => (mtHash cfg st.entries).map
      (fun h => (h, { st with cachedHash := some h }))

end Proofmarshal

/-- SHA-256 of the empty string matches the published digest: a check
that the hash embedding is the real SHA-256. -/
example : Sha256.sha256 [] =
    [0xe3, 0xb0, 0xc4, 0x42, 0x98, 0xfc, 0x1c, 0x14, 0x9a, 0xfb, 0xf4, 0xc8,
     0x99, 0x6f, 0xb9, 0x24, 0x27, 0xae, 0x41, 0xe4, 0x64, 0x9b, 0x93, 0x4c,
     0xa4, 0x95, 0x99, 0x1b, 0x78, 0x52, 0xb8, 0x55] := by decide

namespace Proofmarshal

/-! ## Theorems -/

/-- C8: the attribute interface of a sealed ImmutableProof value:
every attribute assignment and every attribute deletion, for every
attribute name and every candidate value, raises the immutability
error and leaves no way to succeed. -/
theorem immutable_setattr_always_fails :
    ∀ (attrs : List (String × Bytes)) (name : String) (value : Bytes),
      applySetattr immutableProofPolicy attrs name value
          = .error "Object is immutable"
      ∧ applyDelattr immutableProofPolicy attrs name
          = .error "Object is immutable" := by
  intro attrs name value
  exact ⟨rfl, rfl⟩

/-- C2 (code evaluated at the failing input): with a key-hash policy
that complements every key byte, the serializer routes the entry whose
RAW key has top bit 1 to the left partition even though the top bit of
its key-hash is 0, while the standalone algorithm (here run with the
identity hash function to expose the partition) routes by the bit of
its first component, the key hash.  The `keyhash` local of the source
is computed and never used. -/
theorem serializer_partitions_by_raw_key_not_keyhash :
    mtSerialize cfgComplement [([128, 0, 0, 0], [1, 1, 1, 1]), ([0, 0, 0, 1], [2, 2, 2, 2])]
      = some [2, 1, 128, 0, 0, 0, 1, 1, 1, 1, 1, 0, 0, 0, 1, 2, 2, 2, 2]
    ∧ keyBit (cfgComplement.keyGethash [128, 0, 0, 0]) 0 = some 0
    ∧ keyBit (cfgComplement.keyGethash [0, 0, 0, 1]) 0 = some 1
    ∧ calcSummedMerbinnerHash id (fun _ => []) (· + ·) 0
        [([127, 255, 255, 255], [1, 1, 1, 1], 0), ([255, 255, 255, 254], [2, 2, 2, 2], 0)]
      = some ([2, 1, 255, 255, 255, 254, 2, 2, 2, 2, 1, 127, 255, 255, 255, 1, 1, 1, 1], 0) := by
  refine ⟨by decide, by decide, by decide, by decide⟩

/-- C3 (counterexample): the hashing-context stream of a single-entry
summed tree is exactly node tag 1, the key encoding and the value
encoding; it does NOT include the serialized sum of the entry, so the
hash of a single-entry summed tree does not cover the sum. -/
theorem summed_leaf_hash_stream_has_no_sum :
    mtHashStream cfgSummed [([255, 255, 255, 255], [222, 173, 190, 239, 0, 1])]
      = some [1, 255, 255, 255, 255, 222, 173, 190, 239, 0, 1]
    ∧ mtHashStream cfgSummed [([255, 255, 255, 255], [222, 173, 190, 239, 0, 1])]
      ≠ some ([1, 255, 255, 255, 255, 222, 173, 190, 239, 0, 1]
              ++ packBE2 (unpackBE2 [222, 173, 190, 239, 0, 1])) := by
  refine ⟨by decide, by decide⟩

set_option maxRecDepth 100000 in
/-- C9: the dict interface bypasses the immutability guard: after the
hash of an empty tree has been computed and cached, an item assignment
succeeds and changes the entries, the `hash` property still returns
the cached digest of the empty tree, and recomputing `calc_hash` on the
mutated entries yields a different digest — the cache is stale. -/
theorem dict_mutation_leaves_cached_hash_stale :
    mtHashProp (cfgBytesBytes testKey) ⟨[], none⟩
      = some (Sha256.hmacSHA256 testKey [0],
              ⟨[], some (Sha256.hmacSHA256 testKey [0])⟩)
    ∧ mtSetItem ⟨[], some (Sha256.hmacSHA256 testKey [0])⟩
        [255, 255, 255, 255] [222, 173, 190, 239]
      = ⟨[([255, 255, 255, 255], [222, 173, 190, 239])],
         some (Sha256.hmacSHA256 testKey [0])⟩
    ∧ mtHashProp (cfgBytesBytes testKey)
        ⟨[([255, 255, 255, 255], [222, 173, 190, 239])],
         some (Sha256.hmacSHA256 testKey [0])⟩
      = some (Sha256.hmacSHA256 testKey [0],
              ⟨[([255, 255, 255, 255], [222, 173, 190, 239])],
               some (Sha256.hmacSHA256 testKey [0])⟩)
    ∧ mtHash (cfgBytesBytes testKey) [([255, 255, 255, 255], [222, 173, 190, 239])]
      = some (Sha256.hmacSHA256 testKey [1, 255, 255, 255, 255, 222, 173, 190, 239])
    ∧ Sha256.hmacSHA256 testKey [1, 255, 255, 255, 255, 222, 173, 190, 239]
      ≠ Sha256.hmacSHA256 testKey [0] := by
  refine ⟨by decide, by decide, by decide, by decide, by decide⟩

end Proofmarshal

namespace Proofmarshal

/-! ### Varuint lemmas (claim C4) -/

/-- The write loop does not depend on the fuel, as long as the fuel
exceeds the value. -/
theorem writeVaruintAux_fuel (v : Nat) :
    ∀ f f', v < f → v < f' → writeVaruintAux f v = writeVaruintAux f' v := by
  induction v using Nat.strong_induction_on with
  | _ v ih =>
    intro f f' hf hf'
    cases f with
    | zero => omega
    | succ g =>
      cases f' with
      | zero => omega
      | succ g' =>
        simp only [writeVaruintAux]
        by_cases h : v ≤ 127
        · simp [h]
        · have hlt : v >>> 7 < v := by
            rw [Nat.shiftRight_eq_div_pow]
            exact Nat.div_lt_self (by omega) (by norm_num)
          simp only [h, if_false]
          rw [ih (v >>> 7) hlt g g' (by omega) (by omega)]

/-- The one-step unfolding of write_varuint. -/
theorem writeVaruint_unfold (v : Nat) :
    writeVaruint v =
      if v ≤ 127 then [v]
      else ((v &&& 127) ||| 128) :: writeVaruint (v >>> 7) := by
  show writeVaruintAux (v + 1) v = _
  simp only [writeVaruintAux]
  by_cases h : v ≤ 127
  · simp [h]
  · have hlt : v >>> 7 < v := by
      rw [Nat.shiftRight_eq_div_pow]
      exact Nat.div_lt_self (by omega) (by norm_num)
    simp only [h, if_false]
    rw [writeVaruintAux_fuel (v >>> 7) v (v >>> 7 + 1) (by omega) (by omega)]
    rfl

/-- Low seven bits as a remainder. -/
theorem and_127_eq_mod (v : Nat) : v &&& 127 = v % 128 := by
  have := Nat.and_pow_two_sub_one_eq_mod v 7
  norm_num at this
  exact this

/-- A byte below 128 has the continuation bit clear. -/
theorem cont_bit_zero (b : Nat) (h : b < 128) : b &&& 128 = 0 := by
  have h2 := Nat.and_two_pow b 7
  have h3 : b.testBit 7 = false := Nat.testBit_lt_two_pow (by norm_num at h ⊢; omega)
  rw [h3] at h2
  norm_num at h2
  exact h2

/-- Setting the continuation bit makes it read back set. -/
theorem cont_bit_set (x : Nat) : (x ||| 128) &&& 128 = 128 := by
  have h2 := Nat.and_two_pow (x ||| 128) 7
  have h3 : (x ||| 128).testBit 7 = true := by
    rw [show (128 : Nat) = 2 ^ 7 from rfl, Nat.testBit_lor, Nat.testBit_two_pow_self]
    simp
  rw [h3] at h2
  norm_num at h2
  exact h2

/-- The continuation bit does not disturb the low seven bits. -/
theorem lor128_and127 (x : Nat) : (x ||| 128) &&& 127 = x &&& 127 := by
  apply Nat.eq_of_testBit_eq
  intro i
  rw [show (127 : Nat) = 2 ^ 7 - 1 from rfl, show (128 : Nat) = 2 ^ 7 from rfl]
  simp only [Nat.testBit_and, Nat.testBit_lor, Nat.testBit_two_pow_sub_one,
    Nat.testBit_two_pow]
  by_cases h : i < 7
  · simp [h, Nat.ne_of_gt h]
  · simp [h]

/-- Reassembling the seven low bits and the high bits shifted by seven
recovers the value, at any accumulator and shift position. -/
theorem split7 (v shift acc : Nat) :
    (acc ||| ((v &&& 127) <<< shift)) ||| ((v >>> 7) <<< (shift + 7))
      = acc ||| (v <<< shift) := by
  apply Nat.eq_of_testBit_eq
  intro i
  rw [show (127 : Nat) = 2 ^ 7 - 1 from rfl]
  simp only [Nat.testBit_lor, Nat.testBit_shiftLeft, Nat.testBit_shiftRight,
    Nat.testBit_and, Nat.testBit_two_pow_sub_one]
  by_cases h1 : shift ≤ i
  · by_cases h2 : shift + 7 ≤ i
    · have he : 7 + (i - (shift + 7)) = i - shift := by omega
      have hd : ¬(i - shift < 7) := by omega
      simp [h1, h2, he, hd, ge_iff_le]
    · have hd : i - shift < 7 := by omega
      simp [h1, h2, hd, ge_iff_le]
  · have h2 : ¬(shift + 7 ≤ i) := by omega
    simp [h1, h2, ge_iff_le]

/-- Decoding an encoding appended to any remainder consumes exactly
the encoding, merging the value above the bits already accumulated. -/
theorem readVaruintAux_write (v : Nat) :
    ∀ (rest : Bytes) (shift acc : Nat),
      readVaruintAux (writeVaruint v ++ rest) shift acc
        = some (acc ||| (v <<< shift), rest) := by
  induction v using Nat.strong_induction_on with
  | _ v ih =>
    intro rest shift acc
    rw [writeVaruint_unfold]
    by_cases h : v ≤ 127
    · have hb : v &&& 128 = 0 := cont_bit_zero v (by omega)
      have hv : v &&& 127 = v := by
        rw [and_127_eq_mod]
        omega
      simp [readVaruintAux, hb, hv, h]
    · have hlt : v >>> 7 < v := by
        rw [Nat.shiftRight_eq_div_pow]
        exact Nat.div_lt_self (by omega) (by norm_num)
      simp only [h, if_false, List.cons_append, readVaruintAux, cont_bit_set,
        lor128_and127]
      norm_num
      have hi : v &&& 127 &&& 127 = v &&& 127 := by
        rw [Nat.and_assoc]
        congr 1
      rw [hi, ih (v >>> 7) hlt rest (shift + 7) (acc ||| ((v &&& 127) <<< shift)),
        split7]

/-- C4: the varuint codec is canonical LEB128.  The encoding of `n`
takes exactly `max 1 (ceil (bitlength n / 7))` bytes; every byte is
below 256 and carries the 0x80 continuation bit exactly when more
bytes follow; decoding the encoding followed by any remainder returns
exactly `n` and the remainder; and the three known vectors hold. -/
theorem varuint_leb128_correct :
    ∀ (n : Nat) (rest : Bytes),
      (writeVaruint n).length = max 1 ((Nat.size n + 6) / 7)
      ∧ readVaruint (writeVaruint n ++ rest) = some (n, rest)
      ∧ (∀ i x, (writeVaruint n).get? i = some x →
          x < 256 ∧ (128 ≤ x ↔ i + 1 < (writeVaruint n).length))
      ∧ writeVaruint 0 = [0]
      ∧ writeVaruint 1 = [1]
      ∧ writeVaruint 4294967296 = [128, 128, 128, 128, 16] := by
  have hlen : ∀ n : Nat, (writeVaruint n).length = max 1 ((Nat.size n + 6) / 7) := by
    intro n
    induction n using Nat.strong_induction_on with
    | _ n ih =>
      rw [writeVaruint_unfold]
      by_cases h : n ≤ 127
      · have hs : Nat.size n ≤ 7 := Nat.size_le.mpr (by omega)
        simp only [h, if_true, List.length_singleton]
        omega
      · have hlt : n >>> 7 < n := by
          rw [Nat.shiftRight_eq_div_pow]
          exact Nat.div_lt_self (by omega) (by norm_num)
        have h8 : 8 ≤ Nat.size n := by
          have hp : (2 : Nat) ^ 7 ≤ n := by
            have : (2 : Nat) ^ 7 = 128 := by norm_num
            omega
          have := Nat.lt_size.mpr hp
          omega
        have hsz : Nat.size (n >>> 7) = Nat.size n - 7 := by
          have hub : Nat.size (n >>> 7) ≤ Nat.size n - 7 := by
            apply Nat.size_le.mpr
            rw [Nat.shiftRight_eq_div_pow]
            apply Nat.div_lt_of_lt_mul
            have he : (2 : Nat) ^ 7 * 2 ^ (Nat.size n - 7) = 2 ^ Nat.size n := by
              rw [← Nat.pow_add]
              congr 1
              omega
            rw [he]
            exact Nat.lt_size_self n
          have hlb : Nat.size n - 8 < Nat.size (n >>> 7) := by
            apply Nat.lt_size.mpr
            rw [Nat.shiftRight_eq_div_pow]
            apply (Nat.le_div_iff_mul_le (by norm_num : 0 < (2 : Nat) ^ 7)).mpr
            have he : (2 : Nat) ^ (Nat.size n - 8) * 2 ^ 7 = 2 ^ (Nat.size n - 1) := by
              rw [← Nat.pow_add]
              congr 1
              omega
            rw [he]
            exact Nat.lt_size.mp (by omega)
          omega
        simp only [h, if_false, List.length_cons]
        rw [ih (n >>> 7) hlt, hsz]
        have m1 : max 1 ((Nat.size n - 7 + 6) / 7) = (Nat.size n - 7 + 6) / 7 :=
          Nat.max_eq_right (by omega)
        have m2 : max 1 ((Nat.size n + 6) / 7) = (Nat.size n + 6) / 7 :=
          Nat.max_eq_right (by omega)
        rw [m1, m2]
        omega
  have hbytes : ∀ n i x, (writeVaruint n).get? i = some x →
      x < 256 ∧ (128 ≤ x ↔ i + 1 < (writeVaruint n).length) := by
    intro n
    induction n using Nat.strong_induction_on with
    | _ n ih =>
      intro i x hx
      rw [writeVaruint_unfold] at hx ⊢
      by_cases h : n ≤ 127
      · simp only [h, if_true] at hx ⊢
        cases i with
        | zero =>
          simp at hx
          subst hx
          simp
          omega
        | succ j => simp at hx
      · have hlt : n >>> 7 < n := by
          rw [Nat.shiftRight_eq_div_pow]
          exact Nat.div_lt_self (by omega) (by norm_num)
        simp only [h, if_false] at hx ⊢
        cases i with
        | zero =>
          simp at hx
          subst hx
          have hset : 128 ≤ (n &&& 127) ||| 128 := by
            have h1 := cont_bit_set (n &&& 127)
            have h2 : ((n &&& 127) ||| 128) &&& 128 ≤ (n &&& 127) ||| 128 :=
              Nat.and_le_left
            omega
          have hub : (n &&& 127) ||| 128 < 256 := by
            have h1 : n &&& 127 < 128 := by
              rw [and_127_eq_mod]
              omega
            have h2 : n &&& 127 < 2 ^ 8 := by omega
            have h3 : (128 : Nat) < 2 ^ 8 := by norm_num
            have := Nat.or_lt_two_pow h2 h3
            omega
          refine ⟨hub, ?_⟩
          simp only [List.length_cons]
          have hne : writeVaruint (n >>> 7) ≠ [] := by
            rw [writeVaruint_unfold]
            by_cases h7 : n >>> 7 ≤ 127 <;> simp [h7]
          have : 0 < (writeVaruint (n >>> 7)).length := List.length_pos.mpr hne
          constructor
          · intro
            omega
          · intro
            exact hset
        | succ j =>
          simp only [List.get?_cons_succ] at hx
          have := ih (n >>> 7) hlt j x hx
          simpa [Nat.succ_lt_succ_iff] using this
  intro n rest
  refine ⟨hlen n, ?_, hbytes n, by decide, by decide, by decide⟩
  show readVaruintAux _ 0 0 = _
  rw [readVaruintAux_write n rest 0 0]
  simp


/-! ### Merbinner node shape lemmas -/

/-- An empty node emits the tag 0 and the sum identity, in both
contexts. -/
theorem mtSerPlain_nil (cfg : MTConfig) (f d : Nat) :
    mtSerPlain cfg (f + 1) d [] = some ([0], cfg.sumIdentity) := rfl

/-- A leaf emits tag 1, the key encoding and the value encoding, plain
context. -/
theorem mtSerPlain_leaf (cfg : MTConfig) (f d : Nat) (k v : Bytes) (s : Nat) :
    mtSerPlain cfg (f + 1) d [(k, v, s)]
      = some ([1] ++ cfg.keySerialize k ++ cfg.valueSerialize v, s) := rfl

/-- An inner node, plain context: tag 2 followed by the two child
streams inline, no sums written. -/
theorem mtSerPlain_inner (cfg : MTConfig) (f d : Nat) (e1 e2 : Entry)
    (rest : List Entry) (l r : List Entry) (bl br : Bytes) (sl sr : Nat)
    (hsplit : splitItems d (e1 :: e2 :: rest) = some (l, r))
    (hl : mtSerPlain cfg f (d + 1) l = some (bl, sl))
    (hr : mtSerPlain cfg f (d + 1) r = some (br, sr)) :
    mtSerPlain cfg (f + 1) d (e1 :: e2 :: rest)
      = some ([2] ++ bl ++ br, cfg.sumFunc sl sr) := by
  simp [mtSerPlain, hsplit, hl, hr]
  rfl

/-- An empty node, hashing context. -/
theorem mtSerHash_nil (cfg : MTConfig) (f d : Nat) :
    mtSerHash cfg (f + 1) d [] = some ([0], cfg.sumIdentity) := rfl

/-- A leaf, hashing context: the same three fields as in the plain
context and nothing else — in particular no serialized sum. -/
theorem mtSerHash_leaf (cfg : MTConfig) (f d : Nat) (k v : Bytes) (s : Nat) :
    mtSerHash cfg (f + 1) d [(k, v, s)]
      = some ([1] ++ cfg.keySerialize k ++ cfg.valueSerialize v, s) := rfl

/-- An inner node, hashing context: tag 2, then for each side the
HMAC digest of the child stream followed by that side sum. -/
theorem mtSerHash_inner (cfg : MTConfig) (f d : Nat) (e1 e2 : Entry)
    (rest : List Entry) (l r : List Entry) (bl br : Bytes) (sl sr : Nat)
    (hsplit : splitItems d (e1 :: e2 :: rest) = some (l, r))
    (hl : mtSerHash cfg f (d + 1) l = some (bl, sl))
    (hr : mtSerHash cfg f (d + 1) r = some (br, sr)) :
    mtSerHash cfg (f + 1) d (e1 :: e2 :: rest)
      = some ([2] ++ Sha256.hmacSHA256 cfg.hmacKey bl ++ cfg.sumSerialize sl
                  ++ Sha256.hmacSHA256 cfg.hmacKey br ++ cfg.sumSerialize sr,
              cfg.sumFunc sl sr) := by
  simp [mtSerHash, hsplit, hl, hr]
  rfl

/-! ### splitItems lemmas -/

/-- When every item has a partition bit at this depth, splitItems is
the pair of bit filters, in input order. -/
theorem splitItems_eq_filter (d : Nat) (items : List Entry)
    (h : ∀ e ∈ items, keyBit e.1 d ≠ none) :
    splitItems d items
      = some (items.filter (fun e => keyBit e.1 d == some 1),
              items.filter (fun e => !(keyBit e.1 d == some 1))) := by
  induction items with
  | nil => rfl
  | cons e rest ih =>
    have he : keyBit e.1 d ≠ none := h e (List.mem_cons_self e rest)
    obtain ⟨b, hb⟩ : ∃ b, keyBit e.1 d = some b := by
      cases hc : keyBit e.1 d with
      | none => exact absurd hc he
      | some b => exact ⟨b, rfl⟩
    have ih2 := ih (fun e' he' => h e' (List.mem_cons_of_mem e he'))
    by_cases hb1 : b = 1
    · subst hb1
      simp [splitItems, hb, ih2, List.filter_cons]
    · simp [splitItems, hb, ih2, List.filter_cons, hb1]

/-- If some item has no partition bit at this depth, splitItems fails
(the IndexError of the source). -/
theorem splitItems_none (d : Nat) (items : List Entry)
    (h : ∃ e ∈ items, keyBit e.1 d = none) :
    splitItems d items = none := by
  induction items with
  | nil => simp at h
  | cons e rest ih =>
    obtain ⟨e', he', hnone⟩ := h
    rcases List.mem_cons.mp he' with rfl | hmem
    · simp [splitItems, hnone]
    · cases hc : keyBit e.1 d with
      | none => simp [splitItems, hc]
      | some b => simp [splitItems, hc, ih ⟨e', hmem, hnone⟩]

/-- The two partitions together are a permutation of the input. -/
theorem splitItems_perm (d : Nat) :
    ∀ (items l r : List Entry), splitItems d items = some (l, r) →
      (l ++ r).Perm items := by
  intro items
  induction items with
  | nil =>
    intro l r h
    simp [splitItems] at h
    simp [h.1, h.2]
  | cons e rest ih =>
    intro l r h
    cases hc : keyBit e.1 d with
    | none => simp [splitItems, hc] at h
    | some b =>
      cases hrec : splitItems d rest with
      | none => simp [splitItems, hc, hrec] at h
      | some p =>
        obtain ⟨l0, r0⟩ := p
        by_cases hb1 : b = 1
        · simp [splitItems, hc, hrec, hb1] at h
          obtain ⟨hl, hr⟩ := h
          subst hl
          subst hr
          exact List.Perm.cons e (ih l0 r0 hrec)
        · simp [splitItems, hc, hrec, hb1] at h
          obtain ⟨hl, hr⟩ := h
          subst hl
          subst hr
          exact List.Perm.trans List.perm_middle (List.Perm.cons e (ih l0 r0 hrec))

/-- The bit a key contributes at any depth is zero or one. -/
theorem keyBit_le_one (k : Bytes) (d b : Nat) (h : keyBit k d = some b) :
    b = 0 ∨ b = 1 := by
  unfold keyBit at h
  cases hg : List.get? k (d / 8) with
  | none =>
    rw [hg] at h
    simp at h
  | some byte =>
    rw [hg] at h
    simp at h
    have h2 := Nat.and_pow_two_sub_one_eq_mod (byte >>> (7 - d % 8)) 1
    norm_num at h2
    omega

/-- The serializer stream and sum depend only on the multiset of
items: permuting the dict iteration order changes nothing.  This is
what makes the encoding canonical per mapping. -/
theorem mtSerPlain_perm (cfg : MTConfig) :
    ∀ (f d : Nat) (items items2 : List Entry), items.Perm items2 →
      mtSerPlain cfg f d items = mtSerPlain cfg f d items2 := by
  intro f
  induction f with
  | zero =>
    intro d items items2 _
    rfl
  | succ f ih =>
    intro d items items2 hp
    cases items with
    | nil =>
      have h0 : items2 = [] := List.perm_nil.mp hp.symm
      subst h0
      rfl
    | cons e1 t =>
      cases t with
      | nil =>
        have h1 : [e1] = items2 := List.singleton_perm.mp hp
        rw [← h1]
      | cons e2 rest =>
        have hlen := hp.length_eq
        obtain ⟨a, b, t2, rfl⟩ : ∃ a b t2, items2 = a :: b :: t2 := by
          cases items2 with
          | nil => simp at hlen
          | cons x xs =>
            cases xs with
            | nil => simp at hlen
            | cons y ys => exact ⟨x, y, ys, rfl⟩
        by_cases hok : ∀ e ∈ (e1 :: e2 :: rest), keyBit e.1 d ≠ none
        · have hok2 : ∀ e ∈ (a :: b :: t2), keyBit e.1 d ≠ none :=
            fun e he => hok e (hp.mem_iff.mpr he)
          have hsp := splitItems_eq_filter d (e1 :: e2 :: rest) hok
          have hsp2 := splitItems_eq_filter d (a :: b :: t2) hok2
          have hfl := hp.filter (fun e => keyBit e.1 d == some 1)
          have hfr := hp.filter (fun e => !(keyBit e.1 d == some 1))
          have ihl := ih (d + 1) _ _ hfl
          have ihr := ih (d + 1) _ _ hfr
          simp only [mtSerPlain, hsp, hsp2, Option.bind_eq_bind, Option.some_bind]
          rw [ihl, ihr]
        · have hex : ∃ e ∈ (e1 :: e2 :: rest), keyBit e.1 d = none := by
            push_neg at hok
            obtain ⟨e, he, hne⟩ := hok
            exact ⟨e, he, hne⟩
          obtain ⟨e, he, hnone⟩ := hex
          have h1 := splitItems_none d _ ⟨e, he, hnone⟩
          have h2 := splitItems_none d _ ⟨e, hp.mem_iff.mp he, hnone⟩
          simp [mtSerPlain, h1, h2]

/-- Shifting a bit position by one byte steps over the head byte. -/
theorem keyBit_cons (b : Nat) (t : Bytes) (j : Nat) :
    keyBit (b :: t) (8 + j) = keyBit t j := by
  unfold keyBit
  have h1 : (8 + j) / 8 = j / 8 + 1 := by
    rw [Nat.add_comm]
    exact Nat.add_div_right j (by norm_num)
  have h2 : (8 + j) % 8 = j % 8 := Nat.add_mod_left 8 j
  rw [h1, h2, List.get?_cons_succ]

/-- Two bytes with the same eight most-significant-first bits are
equal. -/
theorem byte_eq_of_bits (b b2 : Nat) (hb : b < 256) (hb2 : b2 < 256)
    (h : ∀ i < 8, (b >>> (7 - i)) &&& 1 = (b2 >>> (7 - i)) &&& 1) : b = b2 := by
  have e1 : ∀ x : Nat, x &&& 1 = x % 2 := fun x => Nat.and_one_is_mod x
  apply Nat.eq_of_testBit_eq
  intro i
  by_cases hi : i < 8
  · have hbit := h (7 - i) (by omega)
    rw [show 7 - (7 - i) = i by omega] at hbit
    rw [e1, e1, Nat.shiftRight_eq_div_pow, Nat.shiftRight_eq_div_pow] at hbit
    rw [Nat.testBit_to_div_mod, Nat.testBit_to_div_mod, hbit]
  · have hpow : (256 : Nat) ≤ 2 ^ i := by
      have : (256 : Nat) = 2 ^ 8 := by norm_num
      rw [this]
      exact Nat.pow_le_pow_right (by norm_num) (by omega)
    rw [Nat.testBit_lt_two_pow (by omega), Nat.testBit_lt_two_pow (by omega)]

/-- Two byte-string keys of the same length whose partition bits agree
at every depth below eight times their length are equal. -/
theorem keys_eq_of_bits :
    ∀ (k k2 : Bytes), k.length = k2.length →
      (∀ b ∈ k, b < 256) → (∀ b ∈ k2, b < 256) →
      (∀ j < 8 * k.length, keyBit k j = keyBit k2 j) → k = k2 := by
  intro k
  induction k with
  | nil =>
    intro k2 hlen _ _ _
    symm
    exact List.length_eq_zero.mp hlen.symm
  | cons b t ih =>
    intro k2 hlen hb hb2 hbits
    cases k2 with
    | nil => simp at hlen
    | cons c t2 =>
      have hlen2 : t.length = t2.length := by simpa using hlen
      have hhead : b = c := by
        apply byte_eq_of_bits b c (hb b (List.mem_cons_self b t))
          (hb2 c (List.mem_cons_self c t2))
        intro i hi
        have hx := hbits i (by simp [List.length_cons]; omega)
        unfold keyBit at hx
        rw [show i / 8 = 0 by omega, show i % 8 = i by omega] at hx
        simp only [List.get?_cons_zero, Option.map_some] at hx
        exact Option.some.inj hx
      subst hhead
      congr 1
      apply ih t2 hlen2 (fun x hx => hb x (List.mem_cons_of_mem _ hx))
        (fun x hx => hb2 x (List.mem_cons_of_mem _ hx))
      intro j hj
      have hx := hbits (8 + j) (by simp [List.length_cons]; omega)
      rw [keyBit_cons, keyBit_cons] at hx
      exact hx

/-- With pairwise-distinct fixed-length byte keys the serializer
always succeeds, given the fuel budget the top-level call supplies:
past the depth where two distinct keys must already have separated,
no node can hold two entries. -/
theorem mtSerPlain_total (cfg : MTConfig) (L : Nat) :
    ∀ (f d : Nat) (items : List Entry),
      (∀ e ∈ items, e.1.length = L ∧ ∀ b ∈ e.1, b < 256) →
      List.Pairwise (fun e e2 : Entry => e.1 ≠ e2.1) items →
      (∀ e ∈ items, ∀ e2 ∈ items, ∀ j < d, keyBit e.1 j = keyBit e2.1 j) →
      d ≤ 8 * L →
      8 * L + 2 ≤ f + d →
      ∃ bs s, mtSerPlain cfg f d items = some (bs, s) := by
  intro f
  induction f with
  | zero =>
    intro d items _ _ _ hd hf
    omega
  | succ f ih =>
    intro d items hwf hnd hagree hd hf
    cases items with
    | nil => exact ⟨[0], cfg.sumIdentity, mtSerPlain_nil cfg f d⟩
    | cons e1 t =>
      cases t with
      | nil =>
        obtain ⟨k, v, s⟩ := e1
        exact ⟨_, _, mtSerPlain_leaf cfg f d k v s⟩
      | cons e2 rest =>
        have he1m : e1 ∈ e1 :: e2 :: rest := List.mem_cons_self _ _
        have he2m : e2 ∈ e1 :: e2 :: rest := by simp
        have hd8 : d < 8 * L := by
          by_contra hge
          have he1 := hwf e1 he1m
          have he2 := hwf e2 he2m
          have hne : e1.1 ≠ e2.1 := by
            have := (List.pairwise_cons.mp hnd).1 e2 (by simp)
            exact this
          apply hne
          apply keys_eq_of_bits e1.1 e2.1 (by rw [he1.1, he2.1]) he1.2 he2.2
          intro j hj
          rw [he1.1] at hj
          exact hagree e1 he1m e2 he2m j (by omega)
        have hok : ∀ e ∈ (e1 :: e2 :: rest), keyBit e.1 d ≠ none := by
          intro e he
          have hL := (hwf e he).1
          unfold keyBit
          cases hg : List.get? e.1 (d / 8) with
          | none =>
            have := List.get?_eq_none.mp hg
            rw [hL] at this
            omega
          | some byte => simp
        have hsp := splitItems_eq_filter d _ hok
        have hsubl : (List.filter (fun e : Entry => keyBit e.1 d == some 1)
            (e1 :: e2 :: rest)).Sublist (e1 :: e2 :: rest) := List.filter_sublist _
        have hsubr : (List.filter (fun e : Entry => !(keyBit e.1 d == some 1))
            (e1 :: e2 :: rest)).Sublist (e1 :: e2 :: rest) := List.filter_sublist _
        have hagl : ∀ a ∈ List.filter (fun e : Entry => keyBit e.1 d == some 1)
              (e1 :: e2 :: rest),
            ∀ c ∈ List.filter (fun e : Entry => keyBit e.1 d == some 1)
              (e1 :: e2 :: rest),
            ∀ j < d + 1, keyBit a.1 j = keyBit c.1 j := by
          intro a ha b hb j hj
          obtain ⟨ha1, ha2⟩ := List.mem_filter.mp ha
          obtain ⟨hb1, hb2⟩ := List.mem_filter.mp hb
          by_cases hjd : j < d
          · exact hagree a ha1 b hb1 j hjd
          · have hjeq : j = d := by omega
            subst hjeq
            rw [beq_iff_eq] at ha2 hb2
            rw [ha2, hb2]
        have hagr : ∀ a ∈ List.filter (fun e : Entry => !(keyBit e.1 d == some 1))
              (e1 :: e2 :: rest),
            ∀ c ∈ List.filter (fun e : Entry => !(keyBit e.1 d == some 1))
              (e1 :: e2 :: rest),
            ∀ j < d + 1, keyBit a.1 j = keyBit c.1 j := by
          intro a ha b hb j hj
          obtain ⟨ha1, ha2⟩ := List.mem_filter.mp ha
          obtain ⟨hb1, hb2⟩ := List.mem_filter.mp hb
          by_cases hjd : j < d
          · exact hagree a ha1 b hb1 j hjd
          · have hjeq : j = d := by omega
            subst hjeq
            have hza : keyBit a.1 j = some 0 := by
              cases hca : keyBit a.1 j with
              | none => exact absurd hca (hok a ha1)
              | some x =>
                rcases keyBit_le_one a.1 j x hca with rfl | rfl
                · rfl
                · rw [hca] at ha2
                  simp at ha2
            have hzb : keyBit b.1 j = some 0 := by
              cases hcb : keyBit b.1 j with
              | none => exact absurd hcb (hok b hb1)
              | some x =>
                rcases keyBit_le_one b.1 j x hcb with rfl | rfl
                · rfl
                · rw [hcb] at hb2
                  simp at hb2
            rw [hza, hzb]
        obtain ⟨bl, sl, hl⟩ := ih (d + 1) _
          (fun e he => hwf e (hsubl.mem he))
          (List.Pairwise.sublist hsubl hnd) hagl (by omega) (by omega)
        obtain ⟨br, sr, hr⟩ := ih (d + 1) _
          (fun e he => hwf e (hsubr.mem he))
          (List.Pairwise.sublist hsubr hnd) hagr (by omega) (by omega)
        exact ⟨_, _, mtSerPlain_inner cfg f d e1 e2 rest _ _ bl br sl sr hsp hl hr⟩

/-- A single byte below 128 read off the front of a stream is itself
the decoded varuint. -/
theorem readVaruint_small (t : Nat) (h : t < 128) (rest : Bytes) :
    readVaruint (t :: rest) = some (t, rest) := by
  have h0 : t &&& 128 = 0 := cont_bit_zero t h
  have h1 : t &&& 127 = t := by
    rw [and_127_eq_mod]
    omega
  simp [readVaruint, readVaruintAux, h0, h1]

/-- Bind on an Except success reduces to the continuation. -/
theorem Except_bind_ok {ε α β : Type} (x : α) (f : α → Except ε β) :
    (Except.ok x : Except ε α) >>= f = f x := rfl

/-- Decoding a serialized node consumes exactly its stream, leaves the
trailing bytes untouched, and inserts exactly the node entries (in
partition order: a permutation of the input). -/
theorem mtDeserRec_of_mtSerPlain (cfg : MTConfig) :
    ∀ (f d : Nat) (items : List Entry) (s : Bytes) (sum : Nat),
      (∀ e ∈ items, ∀ rest,
        cfg.keyDeserialize (cfg.keySerialize e.1 ++ rest) = some (e.1, rest)) →
      (∀ e ∈ items, ∀ rest,
        cfg.valueDeserialize (cfg.valueSerialize e.2.1 ++ rest) = some (e.2.1, rest)) →
      mtSerPlain cfg f d items = some (s, sum) →
      ∀ (fuel : Nat) (rest : Bytes), s.length < fuel →
        ∃ pairs, mtDeserRec cfg fuel (s ++ rest) = .ok (pairs, rest)
          ∧ pairs.Perm (items.map (fun e => (e.1, e.2.1))) := by
  intro f
  induction f with
  | zero =>
    intro d items s sum _ _ hser
    exact absurd hser (by simp [mtSerPlain])
  | succ f ih =>
    intro d items s sum hk hv hser fuel rest hfuel
    cases items with
    | nil =>
      rw [mtSerPlain_nil] at hser
      simp only [Option.some.injEq, Prod.mk.injEq] at hser
      obtain ⟨hs, _⟩ := hser
      subst hs
      cases fuel with
      | zero => omega
      | succ fl =>
        refine ⟨[], ?_, by simp⟩
        show mtDeserRec cfg (fl + 1) (0 :: rest) = .ok ([], rest)
        simp [mtDeserRec, readVaruint_small 0 (by norm_num) rest]
    | cons e1 t =>
      cases t with
      | nil =>
        obtain ⟨k, v, sv⟩ := e1
        rw [mtSerPlain_leaf] at hser
        simp only [Option.some.injEq, Prod.mk.injEq] at hser
        obtain ⟨hs, _⟩ := hser
        subst hs
        cases fuel with
        | zero => simp at hfuel
        | succ fl =>
          refine ⟨[(k, v)], ?_, by simp⟩
          have hassoc : ([1] ++ cfg.keySerialize k ++ cfg.valueSerialize v) ++ rest
              = 1 :: (cfg.keySerialize k ++ (cfg.valueSerialize v ++ rest)) := by
            simp
          rw [hassoc]
          have hkk := hk (k, v, sv) (by simp) (cfg.valueSerialize v ++ rest)
          have hvv := hv (k, v, sv) (by simp) rest
          simp [mtDeserRec, readVaruint_small 1 (by norm_num), hkk, hvv]
      | cons e2 rest2 =>
        simp only [mtSerPlain, Option.bind_eq_bind, Option.bind_eq_some,
          Option.pure_def, Option.some.injEq] at hser
        obtain ⟨⟨l, r⟩, hsp, ⟨bl, sl⟩, hl, ⟨br, sr⟩, hr, hser⟩ := hser
        have hs : writeVaruint 2 ++ bl ++ br = s := congrArg Prod.fst hser
        subst hs
        have hperm := splitItems_perm d _ l r hsp
        have hmeml : ∀ e ∈ l, e ∈ e1 :: e2 :: rest2 :=
          fun e he => hperm.mem_iff.mp (List.mem_append_left r he)
        have hmemr : ∀ e ∈ r, e ∈ e1 :: e2 :: rest2 :=
          fun e he => hperm.mem_iff.mp (List.mem_append_right l he)
        cases fuel with
        | zero => simp at hfuel
        | succ fl =>
          have h2eq : writeVaruint 2 = [2] := rfl
          rw [h2eq] at hfuel
          obtain ⟨pl, hdl, hpl⟩ := ih (d + 1) l bl sl
            (fun e he => hk e (hmeml e he)) (fun e he => hv e (hmeml e he)) hl
            fl (br ++ rest) (by simp at hfuel ⊢; omega)
          obtain ⟨pr, hdr, hpr⟩ := ih (d + 1) r br sr
            (fun e he => hk e (hmemr e he)) (fun e he => hv e (hmemr e he)) hr
            fl rest (by simp at hfuel ⊢; omega)
          refine ⟨pl ++ pr, ?_, ?_⟩
          · have hassoc : (writeVaruint 2 ++ bl ++ br) ++ rest
                = 2 :: (bl ++ (br ++ rest)) := by
              show ([2] ++ bl ++ br) ++ rest = _
              simp
            rw [hassoc]
            simp [mtDeserRec, readVaruint_small 2 (by norm_num), hdl, hdr]
            rw [Except_bind_ok]
            simp only [hdr]
            rfl
          · refine (hpl.append hpr).trans ?_
            have := hperm.map (fun e : Entry => (e.1, e.2.1))
            rw [List.map_append] at this
            exact this

/-- maxKeyLen of a cons. -/
theorem maxKeyLen_cons (p : Bytes × Bytes) (t : List (Bytes × Bytes)) :
    maxKeyLen (p :: t) = max p.1.length (maxKeyLen t) := rfl

/-- All keys of one length pin down maxKeyLen. -/
theorem maxKeyLen_eq (L : Nat) :
    ∀ pairs : List (Bytes × Bytes), pairs ≠ [] →
      (∀ p ∈ pairs, p.1.length = L) → maxKeyLen pairs = L := by
  intro pairs
  induction pairs with
  | nil => intro h; exact absurd rfl h
  | cons p t ih =>
    intro _ h
    rw [maxKeyLen_cons, h p (List.mem_cons_self p t)]
    cases t with
    | nil => simp [maxKeyLen]
    | cons q t2 =>
      rw [ih (by simp) (fun q2 hq => h q2 (List.mem_cons_of_mem _ hq))]
      simp

/-- Projecting the work items back to pairs recovers the dict items. -/
theorem mtItems_proj (cfg : MTConfig) (pairs : List (Bytes × Bytes)) :
    (mtItems cfg pairs).map (fun e : Entry => (e.1, e.2.1)) = pairs := by
  induction pairs with
  | nil => rfl
  | cons p t ih => simp [mtItems] at ih ⊢; exact ih

/-- The shared content of the round-trip and trailing-bytes claims:
under well-formed key and value codecs, with pairwise-distinct keys of
one fixed length, serialization succeeds, decoding the stream plus any
trailing bytes stops exactly at the stream end and returns the same
mapping (as a permutation of pairs), and re-serializing the decoded
mapping reproduces the stream byte for byte. -/
theorem mtRoundtrip_core (cfg : MTConfig) (L : Nat)
    (pairs : List (Bytes × Bytes))
    (hk : ∀ k rest, (∃ v, (k, v) ∈ pairs) →
      cfg.keyDeserialize (cfg.keySerialize k ++ rest) = some (k, rest))
    (hv : ∀ v rest, (∃ k, (k, v) ∈ pairs) →
      cfg.valueDeserialize (cfg.valueSerialize v ++ rest) = some (v, rest))
    (hlen : ∀ p ∈ pairs, p.1.length = L)
    (hbytes : ∀ p ∈ pairs, ∀ b ∈ p.1, b < 256)
    (hnodup : pairs.Pairwise (fun p q => p.1 ≠ q.1)) :
    ∃ s, mtSerialize cfg pairs = some s ∧
      ∀ extra : Bytes, ∃ pairs2,
        mtDeserRec cfg ((s ++ extra).length + 1) (s ++ extra)
            = .ok (pairs2, extra)
        ∧ pairs2.Perm pairs
        ∧ mtSerialize cfg pairs2 = some s := by
  by_cases hnil : pairs = []
  · subst hnil
    refine ⟨[0], rfl, ?_⟩
    intro extra
    refine ⟨[], ?_, List.Perm.refl [], rfl⟩
    show mtDeserRec cfg (extra.length + 1 + 1) (0 :: extra) = .ok ([], extra)
    cases h : extra.length + 1 + 1 with
    | zero => omega
    | succ fl =>
      simp [mtDeserRec, readVaruint_small 0 (by norm_num) extra]
  · have hmax : maxKeyLen pairs = L := maxKeyLen_eq L pairs hnil hlen
    have hwf : ∀ e ∈ mtItems cfg pairs, e.1.length = L ∧ ∀ b ∈ e.1, b < 256 := by
      intro e he
      obtain ⟨p, hp, rfl⟩ := List.mem_map.mp he
      exact ⟨hlen p hp, hbytes p hp⟩
    have hnd : (mtItems cfg pairs).Pairwise (fun e e2 : Entry => e.1 ≠ e2.1) := by
      rw [mtItems, List.pairwise_map]
      exact hnodup
    obtain ⟨s, sum, hser⟩ := mtSerPlain_total cfg L (8 * L + 2) 0
      (mtItems cfg pairs) hwf hnd (by intro e _ e2 _ j hj; omega) (by omega)
      (by omega)
    have hserialize : mtSerialize cfg pairs = some s := by
      unfold mtSerialize mtFuel
      rw [hmax, hser]
      rfl
    refine ⟨s, hserialize, ?_⟩
    intro extra
    have hkitems : ∀ e ∈ mtItems cfg pairs, ∀ rest,
        cfg.keyDeserialize (cfg.keySerialize e.1 ++ rest) = some (e.1, rest) := by
      intro e he rest
      obtain ⟨p, hp, rfl⟩ := List.mem_map.mp he
      exact hk p.1 rest ⟨p.2, by simpa using hp⟩
    have hvitems : ∀ e ∈ mtItems cfg pairs, ∀ rest,
        cfg.valueDeserialize (cfg.valueSerialize e.2.1 ++ rest)
          = some (e.2.1, rest) := by
      intro e he rest
      obtain ⟨p, hp, rfl⟩ := List.mem_map.mp he
      exact hv p.2 rest ⟨p.1, by simpa using hp⟩
    obtain ⟨pairs2, hdec, hperm0⟩ := mtDeserRec_of_mtSerPlain cfg (8 * L + 2) 0
      (mtItems cfg pairs) s sum hkitems hvitems hser ((s ++ extra).length + 1)
      extra (by simp; omega)
    have hperm : pairs2.Perm pairs := by
      rw [mtItems_proj] at hperm0
      exact hperm0
    refine ⟨pairs2, hdec, hperm, ?_⟩
    have hnil2 : pairs2 ≠ [] := by
      intro hc
      subst hc
      exact hnil (List.perm_nil.mp hperm.symm)
    have hmax2 : maxKeyLen pairs2 = L :=
      maxKeyLen_eq L pairs2 hnil2
        (fun p hp => hlen p (hperm.mem_iff.mp hp))
    have hitemsperm : (mtItems cfg pairs2).Perm (mtItems cfg pairs) :=
      hperm.map _
    unfold mtSerialize mtFuel
    rw [hmax2, mtSerPlain_perm cfg (8 * L + 2) 0 _ _ hitemsperm, hser]
    rfl

/-- Helper for readFixed on a prefix of the declared length. -/
theorem readFixed_append (n : Nat) (k rest : Bytes) (h : k.length = n) :
    readFixed n (k ++ rest) = some (k, rest) := by
  subst h
  unfold readFixed
  rw [if_pos (by simp), List.take_left, List.drop_left]

/-- The standalone fuel measured on the work items equals the tree
fuel measured on the dict pairs. -/
theorem itemsFuel_mtItems (cfg : MTConfig) (pairs : List (Bytes × Bytes)) :
    itemsFuel (mtItems cfg pairs) = mtFuel pairs := by
  unfold itemsFuel mtFuel maxKeyLen mtItems
  rw [List.foldr_map]

/-- Level-by-level agreement of the standalone summed algorithm, in
its unsummed configuration, with the hashing-context serializer of the
identity byte configuration: the standalone hash of a node is the HMAC
of the hashing-context stream of that node. -/
theorem calcSummedAux_eq_mtSerHash (K : Bytes) :
    ∀ (f d : Nat) (items : List Entry),
      calcSummedAux (Sha256.hmacSHA256 K) (fun _ => []) (· + ·) 0 f d items
        = (mtSerHash (cfgBytesBytes K) f d items).map
            (fun p => (Sha256.hmacSHA256 K p.1, p.2)) := by
  intro f
  induction f with
  | zero =>
    intro d items
    rfl
  | succ f ih =>
    intro d items
    cases items with
    | nil => rfl
    | cons e1 t =>
      cases t with
      | nil =>
        obtain ⟨k, v, s⟩ := e1
        show some (Sha256.hmacSHA256 K ([1] ++ k ++ v ++ []), s) = _
        rw [List.append_nil]
        rfl
      | cons e2 rest =>
        cases hsp : splitItems d (e1 :: e2 :: rest) with
        | none => simp [calcSummedAux, mtSerHash, hsp]
        | some lr =>
          obtain ⟨l, r⟩ := lr
          have ihl := ih (d + 1) l
          have ihr := ih (d + 1) r
          simp only [calcSummedAux, mtSerHash, hsp, Option.bind_eq_bind,
            Option.some_bind]
          rw [ihl, ihr]
          cases hcl : mtSerHash (cfgBytesBytes K) f (d + 1) l with
          | none => rfl
          | some pl =>
            cases hcr : mtSerHash (cfgBytesBytes K) f (d + 1) r with
            | none => rfl
            | some pr =>
              obtain ⟨bl, sl⟩ := pl
              obtain ⟨br, sr⟩ := pr
              simp [cfgBytesBytes]
              rfl

/-- C1 (amended): in the unsummed identity configuration — key and
value serialized as their raw bytes, key_gethash and value_gethash the
identity, sum serialization empty — the hash of the tree object equals
the standalone calc_merbinner_hash of its `(key, value)` pairs under
the same HMAC key, for every finite pair list whatsoever. -/
theorem merbinner_hash_eq_standalone_unsummed (K : Bytes)
    (pairs : List (Bytes × Bytes)) :
    mtHash (cfgBytesBytes K) pairs
      = calcMerbinnerHash (Sha256.hmacSHA256 K) pairs := by
  unfold mtHash mtHashStream calcMerbinnerHash calcSummedMerbinnerHash
  have hitems : pairs.map (fun p => (p.1, p.2, 0)) = mtItems (cfgBytesBytes K) pairs := rfl
  rw [hitems, itemsFuel_mtItems, calcSummedAux_eq_mtSerHash]
  cases mtSerHash (cfgBytesBytes K) (mtFuel pairs) 0 (mtItems (cfgBytesBytes K) pairs) with
  | none => rfl
  | some p => rfl

set_option maxRecDepth 100000 in
/-- C1 (counterexample): the claimed equivalence between the tree
hashing path and the standalone algorithm fails on the code as it
stands, in two independent ways: (1) for a summed single-entry tree
the standalone leaf hash covers the serialized sum while the tree path
does not; (2) with a non-identity key_gethash the tree partitions by
raw key bits while the standalone partitions by key-hash bits (and
hashes the key-hash bytes), so the digests differ. -/
theorem merbinner_tree_standalone_mismatch :
    mtHash cfgSummed [([255, 255, 255, 255], [222, 173, 190, 239, 0, 1])]
      ≠ (calcSummedMerbinnerHash (Sha256.hmacSHA256 summedTestKey) packBE2
          (· + ·) 0
          [(cfgSummed.keyGethash [255, 255, 255, 255],
            cfgSummed.valueGethash [222, 173, 190, 239, 0, 1],
            cfgSummed.valueGetsum [222, 173, 190, 239, 0, 1])]).map Prod.fst
    ∧ mtHash cfgComplement [([128, 0, 0, 0], [1, 1, 1, 1]), ([0, 0, 0, 1], [2, 2, 2, 2])]
      ≠ calcMerbinnerHash (Sha256.hmacSHA256 testKey)
          [(cfgComplement.keyGethash [128, 0, 0, 0],
            cfgComplement.valueGethash [1, 1, 1, 1]),
           (cfgComplement.keyGethash [0, 0, 0, 1],
            cfgComplement.valueGethash [2, 2, 2, 2])] := by
  refine ⟨by decide, by decide⟩

/-- The two-entry hashing path with one entry on each side of the top
bit, for any fuel of the shape the top-level call produces. -/
theorem mtSerHash_two_entries (cfg : MTConfig) (f : Nat)
    (k1 v1 k2 v2 : Bytes) (s1 s2 : Nat)
    (h1 : keyBit k1 0 = some 1) (h2 : keyBit k2 0 = some 0) :
    mtSerHash cfg (f + 2) 0 [(k1, v1, s1), (k2, v2, s2)]
      = some ([2]
          ++ Sha256.hmacSHA256 cfg.hmacKey
              ([1] ++ cfg.keySerialize k1 ++ cfg.valueSerialize v1)
          ++ cfg.sumSerialize s1
          ++ Sha256.hmacSHA256 cfg.hmacKey
              ([1] ++ cfg.keySerialize k2 ++ cfg.valueSerialize v2)
          ++ cfg.sumSerialize s2,
          cfg.sumFunc s1 s2) := by
  have hsp : splitItems 0 [(k1, v1, s1), (k2, v2, s2)]
      = some ([(k1, v1, s1)], [(k2, v2, s2)]) := by
    simp [splitItems, h1, h2]
  exact mtSerHash_inner cfg (f + 1) 0 (k1, v1, s1) (k2, v2, s2) [] _ _ _ _ _ _
    hsp (mtSerHash_leaf cfg f 1 k1 v1 s1) (mtSerHash_leaf cfg f 1 k2 v2 s2)

/-- C5: the concrete vectors of the unsummed 4-byte configuration
under the fixed test key: the empty tree hashes to HMAC of the single
byte 0; the single-entry tree with key ffffffff and value deadbeef
hashes to HMAC of 01 ffffffff deadbeef; and for any two entries whose
keys have top bits 1 and 0, in either insertion order, the tree hashes
to HMAC of 02 followed by the leaf digest of the top-bit-1 entry (the
left child) and then the leaf digest of the other. -/
theorem merbinner_concrete_vectors (k1 v1 k2 v2 : Bytes)
    (h1 : keyBit k1 0 = some 1) (h2 : keyBit k2 0 = some 0) :
    mtHash (cfgBytesBytes testKey) [] = some (Sha256.hmacSHA256 testKey [0])
    ∧ mtHash (cfgBytesBytes testKey)
        [([255, 255, 255, 255], [222, 173, 190, 239])]
      = some (Sha256.hmacSHA256 testKey
          [1, 255, 255, 255, 255, 222, 173, 190, 239])
    ∧ mtHash (cfgBytesBytes testKey) [(k1, v1), (k2, v2)]
      = some (Sha256.hmacSHA256 testKey
          ([2] ++ Sha256.hmacSHA256 testKey ([1] ++ k1 ++ v1)
              ++ Sha256.hmacSHA256 testKey ([1] ++ k2 ++ v2)))
    ∧ mtHash (cfgBytesBytes testKey) [(k2, v2), (k1, v1)]
      = some (Sha256.hmacSHA256 testKey
          ([2] ++ Sha256.hmacSHA256 testKey ([1] ++ k1 ++ v1)
              ++ Sha256.hmacSHA256 testKey ([1] ++ k2 ++ v2))) := by
  refine ⟨rfl, rfl, ?_, ?_⟩
  · unfold mtHash mtHashStream
    have he : mtItems (cfgBytesBytes testKey) [(k1, v1), (k2, v2)]
        = [(k1, v1, 0), (k2, v2, 0)] := rfl
    have hf : mtFuel [(k1, v1), (k2, v2)]
        = 8 * maxKeyLen [(k1, v1), (k2, v2)] + 2 := rfl
    rw [he, hf, mtSerHash_two_entries (cfgBytesBytes testKey)
      (8 * maxKeyLen [(k1, v1), (k2, v2)]) k1 v1 k2 v2 0 0 h1 h2]
    simp [cfgBytesBytes]
  · unfold mtHash mtHashStream
    have he : mtItems (cfgBytesBytes testKey) [(k2, v2), (k1, v1)]
        = [(k2, v2, 0), (k1, v1, 0)] := rfl
    have hf : mtFuel [(k2, v2), (k1, v1)]
        = (8 * maxKeyLen [(k2, v2), (k1, v1)] + 1) + 1 := rfl
    have hsp : splitItems 0 [(k2, v2, 0), (k1, v1, 0)]
        = some ([(k1, v1, 0)], [(k2, v2, 0)]) := by
      simp [splitItems, h1, h2]
    rw [he, hf, mtSerHash_inner (cfgBytesBytes testKey)
      (8 * maxKeyLen [(k2, v2), (k1, v1)] + 1) 0 (k2, v2, 0) (k1, v1, 0) []
      _ _ _ _ _ _ hsp
      (mtSerHash_leaf _ (8 * maxKeyLen [(k2, v2), (k1, v1)]) 1 k1 v1 0)
      (mtSerHash_leaf _ (8 * maxKeyLen [(k2, v2), (k1, v1)]) 1 k2 v2 0)]
    simp [cfgBytesBytes]

/-- C3 (amended): a leaf node emits exactly node tag 1, the key
encoding and the value encoding — in the plain context AND in the
hashing context alike; the sum of the entry is never written at the
leaf.  When hashing, sums appear only at inner nodes: each child
digest is followed by that child sum. -/
theorem merbinner_leaf_writes_no_sum (cfg : MTConfig) (f d : Nat)
    (k v : Bytes) (s : Nat) (e1 e2 : Entry) (rest : List Entry)
    (l r : List Entry) (bl br : Bytes) (sl sr : Nat)
    (hsplit : splitItems d (e1 :: e2 :: rest) = some (l, r))
    (hl : mtSerHash cfg f (d + 1) l = some (bl, sl))
    (hr : mtSerHash cfg f (d + 1) r = some (br, sr)) :
    mtSerPlain cfg (f + 1) d [(k, v, s)]
      = some ([1] ++ cfg.keySerialize k ++ cfg.valueSerialize v, s)
    ∧ mtSerHash cfg (f + 1) d [(k, v, s)]
      = some ([1] ++ cfg.keySerialize k ++ cfg.valueSerialize v, s)
    ∧ mtSerHash cfg (f + 1) d (e1 :: e2 :: rest)
      = some ([2] ++ Sha256.hmacSHA256 cfg.hmacKey bl ++ cfg.sumSerialize sl
                  ++ Sha256.hmacSHA256 cfg.hmacKey br ++ cfg.sumSerialize sr,
              cfg.sumFunc sl sr) :=
  ⟨mtSerPlain_leaf cfg f d k v s, mtSerHash_leaf cfg f d k v s,
   mtSerHash_inner cfg f d e1 e2 rest l r bl br sl sr hsplit hl hr⟩

/-- Witness for the amended leaf claim at the summed test
configuration and the two-entry summed test vector. -/
theorem merbinner_leaf_writes_no_sum_witness :
    mtSerHash cfgSummed (1 + 1) 0
        [([255, 255, 255, 255], [222, 173, 190, 239, 0, 1], 1),
         ([0, 0, 0, 0], [202, 254, 186, 190, 0, 3], 3)]
      = some ([2]
          ++ Sha256.hmacSHA256 cfgSummed.hmacKey
              [1, 255, 255, 255, 255, 222, 173, 190, 239, 0, 1]
          ++ cfgSummed.sumSerialize 1
          ++ Sha256.hmacSHA256 cfgSummed.hmacKey
              [1, 0, 0, 0, 0, 202, 254, 186, 190, 0, 3]
          ++ cfgSummed.sumSerialize 3,
          cfgSummed.sumFunc 1 3) :=
  (merbinner_leaf_writes_no_sum cfgSummed 1 0
    [255, 255, 255, 255] [222, 173, 190, 239, 0, 1] 1
    ([255, 255, 255, 255], [222, 173, 190, 239, 0, 1], 1)
    ([0, 0, 0, 0], [202, 254, 186, 190, 0, 3], 3) []
    [([255, 255, 255, 255], [222, 173, 190, 239, 0, 1], 1)]
    [([0, 0, 0, 0], [202, 254, 186, 190, 0, 3], 3)]
    [1, 255, 255, 255, 255, 222, 173, 190, 239, 0, 1]
    [1, 0, 0, 0, 0, 202, 254, 186, 190, 0, 3] 1 3
    (by decide) (by decide) (by decide)).2.2

/-- Witness for the concrete-vector claim at the keys ffffffff and
00000000 of the repository test suite. -/
theorem merbinner_concrete_vectors_witness :
    mtHash (cfgBytesBytes testKey)
        [([255, 255, 255, 255], [222, 173, 190, 239]),
         ([0, 0, 0, 0], [202, 254, 186, 190])]
      = some (Sha256.hmacSHA256 testKey
          ([2]
            ++ Sha256.hmacSHA256 testKey
                ([1] ++ [255, 255, 255, 255] ++ [222, 173, 190, 239])
            ++ Sha256.hmacSHA256 testKey
                ([1] ++ [0, 0, 0, 0] ++ [202, 254, 186, 190]))) :=
  (merbinner_concrete_vectors [255, 255, 255, 255] [222, 173, 190, 239]
    [0, 0, 0, 0] [202, 254, 186, 190] (by decide) (by decide)).2.2.1

/-- C7: reading a node during deserialization dispatches on the
decoded tag varuint: 0 decodes the empty node, 1 decodes one key and
one value and inserts that single pair, 2 decodes the left subtree and
then the right from the remaining stream, and EVERY other tag value is
a fatal decode error carrying that tag, with no recovery and no
default. -/
theorem decode_tag_dispatch :
    ∀ (cfg : MTConfig) (f : Nat) (bs rest : Bytes) (t : Nat),
      readVaruint bs = some (t, rest) →
      (2 < t → mtDeserRec cfg (f + 1) bs = .error (.badTag t))
      ∧ (t = 0 → mtDeserRec cfg (f + 1) bs = .ok ([], rest))
      ∧ (t = 1 → ∀ k r1 v r2, cfg.keyDeserialize rest = some (k, r1) →
          cfg.valueDeserialize r1 = some (v, r2) →
          mtDeserRec cfg (f + 1) bs = .ok ([(k, v)], r2))
      ∧ (t = 2 → ∀ l r1 r r2, mtDeserRec cfg f rest = .ok (l, r1) →
          mtDeserRec cfg f r1 = .ok (r, r2) →
          mtDeserRec cfg (f + 1) bs = .ok (l ++ r, r2)) := by
  intro cfg f bs rest t hread
  refine ⟨?_, ?_, ?_, ?_⟩
  · intro ht
    obtain ⟨n, rfl⟩ : ∃ n, t = n + 3 := ⟨t - 3, by omega⟩
    simp [mtDeserRec, hread]
  · rintro rfl
    simp [mtDeserRec, hread]
  · rintro rfl k r1 v r2 hkd hvd
    simp [mtDeserRec, hread, hkd, hvd]
  · rintro rfl l r1 r r2 hdl hdr
    simp [mtDeserRec, hread, hdl]
    rw [Except_bind_ok]
    simp only [hdr]
    rfl

/-- Witness for the tag dispatch at tag 3 (error), tag 0, tag 1 and
tag 2 inputs. -/
theorem decode_tag_dispatch_witness :
    mtDeserRec (cfgBytesBytes testKey) 1 [3] = .error (.badTag 3)
    ∧ mtDeserRec (cfgBytesBytes testKey) 1 [0, 7] = .ok ([], [7])
    ∧ mtDeserRec (cfgBytesBytes testKey) 1
        [1, 255, 255, 255, 255, 222, 173, 190, 239]
      = .ok ([([255, 255, 255, 255], [222, 173, 190, 239])], [])
    ∧ mtDeserRec (cfgBytesBytes testKey) 2 [2, 0, 0] = .ok ([], []) := by
  refine ⟨?_, ?_, ?_, ?_⟩
  · exact (decode_tag_dispatch (cfgBytesBytes testKey) 0 [3] [] 3 rfl).1
      (by norm_num)
  · exact (decode_tag_dispatch (cfgBytesBytes testKey) 0 [0, 7] [7] 0 rfl).2.1
      rfl
  · exact (decode_tag_dispatch (cfgBytesBytes testKey) 0
      [1, 255, 255, 255, 255, 222, 173, 190, 239]
      [255, 255, 255, 255, 222, 173, 190, 239] 1 rfl).2.2.1 rfl
      [255, 255, 255, 255] [222, 173, 190, 239] [222, 173, 190, 239] []
      rfl rfl
  · exact (decode_tag_dispatch (cfgBytesBytes testKey) 1 [2, 0, 0] [0, 0] 2
      rfl).2.2.2 rfl [] [0] [] [] rfl rfl

/-- C6: the merbinner round trip.  For well-formed key and value
codecs (each reads back exactly what it wrote and leaves the rest),
pairwise-distinct keys of one fixed byte length: serialization
succeeds, deserializing its output returns the same mapping (a
permutation of the pairs, hence the same dict), and re-serializing the
decoded mapping reproduces the same bytes — the canonical form is a
fixed point. -/
theorem merbinner_roundtrip (cfg : MTConfig) (L : Nat)
    (pairs : List (Bytes × Bytes))
    (hk : ∀ k rest, (∃ v, (k, v) ∈ pairs) →
      cfg.keyDeserialize (cfg.keySerialize k ++ rest) = some (k, rest))
    (hv : ∀ v rest, (∃ k, (k, v) ∈ pairs) →
      cfg.valueDeserialize (cfg.valueSerialize v ++ rest) = some (v, rest))
    (hlen : ∀ p ∈ pairs, p.1.length = L)
    (hbytes : ∀ p ∈ pairs, ∀ b ∈ p.1, b < 256)
    (hnodup : pairs.Pairwise (fun p q => p.1 ≠ q.1)) :
    ∃ s pairs2,
      mtSerialize cfg pairs = some s
      ∧ mtDeserialize cfg s = .ok pairs2
      ∧ pairs2.Perm pairs
      ∧ mtSerialize cfg pairs2 = some s := by
  obtain ⟨s, hs, h⟩ := mtRoundtrip_core cfg L pairs hk hv hlen hbytes hnodup
  obtain ⟨pairs2, hdec, hperm, hser2⟩ := h []
  refine ⟨s, pairs2, hs, ?_, hperm, hser2⟩
  unfold mtDeserialize
  simp only [List.append_nil] at hdec
  rw [hdec]
  rfl

/-- Witness for the round trip at the two-entry test tree. -/
theorem merbinner_roundtrip_witness :
    ∃ s pairs2,
      mtSerialize (cfgBytesBytes testKey)
          [([255, 255, 255, 255], [222, 173, 190, 239]),
           ([0, 0, 0, 0], [202, 254, 186, 190])] = some s
      ∧ mtDeserialize (cfgBytesBytes testKey) s = .ok pairs2
      ∧ pairs2.Perm [([255, 255, 255, 255], [222, 173, 190, 239]),
           ([0, 0, 0, 0], [202, 254, 186, 190])]
      ∧ mtSerialize (cfgBytesBytes testKey) pairs2 = some s := by
  refine merbinner_roundtrip (cfgBytesBytes testKey) 4 _ ?_ ?_ ?_ ?_ ?_
  · intro k rest hkv
    obtain ⟨v, hv⟩ := hkv
    simp at hv
    rcases hv with ⟨h1, _⟩ | ⟨h1, _⟩ <;> subst h1 <;>
      exact readFixed_append 4 _ rest (by decide)
  · intro v rest hkv
    obtain ⟨k, hk⟩ := hkv
    simp at hk
    rcases hk with ⟨_, h1⟩ | ⟨_, h1⟩ <;> subst h1 <;>
      exact readFixed_append 4 _ rest (by decide)
  · decide
  · decide
  · decide

/-- C10: buffer deserialization never demands that the input be fully
consumed: appending any suffix to a serialized tree leaves decoding
untouched — it returns the same mapping and silently ignores the
trailing bytes, reporting no error. -/
theorem merbinner_deserialize_ignores_trailing (cfg : MTConfig) (L : Nat)
    (pairs : List (Bytes × Bytes)) (extra : Bytes)
    (hk : ∀ k rest, (∃ v, (k, v) ∈ pairs) →
      cfg.keyDeserialize (cfg.keySerialize k ++ rest) = some (k, rest))
    (hv : ∀ v rest, (∃ k, (k, v) ∈ pairs) →
      cfg.valueDeserialize (cfg.valueSerialize v ++ rest) = some (v, rest))
    (hlen : ∀ p ∈ pairs, p.1.length = L)
    (hbytes : ∀ p ∈ pairs, ∀ b ∈ p.1, b < 256)
    (hnodup : pairs.Pairwise (fun p q => p.1 ≠ q.1)) :
    ∃ s pairs2,
      mtSerialize cfg pairs = some s
      ∧ mtDeserialize cfg (s ++ extra) = .ok pairs2
      ∧ pairs2.Perm pairs := by
  obtain ⟨s, hs, h⟩ := mtRoundtrip_core cfg L pairs hk hv hlen hbytes hnodup
  obtain ⟨pairs2, hdec, hperm, _⟩ := h extra
  refine ⟨s, pairs2, hs, ?_, hperm⟩
  unfold mtDeserialize
  rw [hdec]
  rfl

/-- Witness: trailing garbage bytes after a serialized two-entry tree
are ignored by deserialize. -/
theorem merbinner_deserialize_ignores_trailing_witness :
    ∃ s pairs2,
      mtSerialize (cfgBytesBytes testKey)
          [([255, 255, 255, 255], [222, 173, 190, 239]),
           ([0, 0, 0, 0], [202, 254, 186, 190])] = some s
      ∧ mtDeserialize (cfgBytesBytes testKey) (s ++ [9, 9, 9]) = .ok pairs2
      ∧ pairs2.Perm [([255, 255, 255, 255], [222, 173, 190, 239]),
           ([0, 0, 0, 0], [202, 254, 186, 190])] := by
  refine merbinner_deserialize_ignores_trailing (cfgBytesBytes testKey) 4 _
    [9, 9, 9] ?_ ?_ ?_ ?_ ?_
  · intro k rest hkv
    obtain ⟨v, hv⟩ := hkv
    simp at hv
    rcases hv with ⟨h1, _⟩ | ⟨h1, _⟩ <;> subst h1 <;>
      exact readFixed_append 4 _ rest (by decide)
  · intro v rest hkv
    obtain ⟨k, hk⟩ := hkv
    simp at hk
    rcases hk with ⟨_, h1⟩ | ⟨_, h1⟩ <;> subst h1 <;>
      exact readFixed_append 4 _ rest (by decide)
  · decide
  · decide
  · decide

/-- Witness for the varuint claim: the value 300 encodes as the two
bytes 172, 2 — length two, round-trips with a trailing byte left over,
and its first byte carries the continuation bit. -/
theorem varuint_leb128_correct_witness :
    (writeVaruint 300).length = max 1 ((Nat.size 300 + 6) / 7)
    ∧ readVaruint (writeVaruint 300 ++ [7]) = some (300, [7])
    ∧ (128 ≤ 172 ↔ 0 + 1 < (writeVaruint 300).length) := by
  obtain ⟨h1, h2, h3, _⟩ := varuint_leb128_correct 300 [7]
  exact ⟨h1, h2, (h3 0 172 (by decide)).2⟩

end Proofmarshal
